import Mathlib

/-!
Verification of the Connect-4 decision engine (src/Connect4ai.py).

The board is a 6×7 grid of cells, row 0 at the top; a board is a list of
rows, each row a list of natural-number cells (0 = empty, 1 = player,
2 = AI).  Scores live in `WithBot (WithTop ℤ)`, which models the use of
the infinities `-np.inf` / `np.inf` as the initial alpha/beta bounds and
as the initial running values of the search loops.  The call
`random.choice(valid_cols)` that seeds the running best column is
modelled by an explicit function parameter `pick : List ℕ → ℕ`.
-/

namespace Connect4

/-- ROWS constant of the source (6). -/
def ROWS : ℕ := 6

/-- COLS constant of the source (7). -/
def COLS : ℕ := 7

/-- EMPTY cell marker (0). -/
def EMPTY : ℕ := 0

/-- PLAYER piece marker (1). -/
def PLAYER : ℕ := 1

/-- AI piece marker (2). -/
def AI : ℕ := 2

/-- A board: list of rows (row 0 on top), each a list of cells. -/
def Board : Type := List (List ℕ)

instance : DecidableEq Board := by unfold Board; infer_instance

/-- Extended integers with both infinities, the score domain of the search. -/
def XInt : Type := WithBot (WithTop ℤ)

instance : LinearOrder XInt := by unfold XInt; infer_instance
instance : OrderBot XInt := by unfold XInt; infer_instance
instance : OrderTop XInt := by unfold XInt; infer_instance
instance : DecidableEq XInt := by unfold XInt; infer_instance

/-- Embed a plain integer score into the extended score domain. -/
def xz (z : ℤ) : XInt := ((z : WithTop ℤ) : WithBot (WithTop ℤ))

/-- Cell access `board[r][c]`; all accesses performed by the source are
in range, out-of-range access defaults to `EMPTY`. -/
def cell (b : Board) (r c : ℕ) : ℕ := (List.getD b r []).getD c EMPTY

/-- Write a single cell of the board (used by `drop_piece` on the copy). -/
def setCell (b : Board) (r c v : ℕ) : Board :=
  List.set b r ((List.getD b r []).set c v)

/-- `create_board()`: the empty 6×7 board of zeros. -/
def create_board : Board := List.replicate ROWS (List.replicate COLS EMPTY)

/-- `get_valid_columns(board)`: columns whose top cell is empty, ascending. -/
def get_valid_columns (b : Board) : List ℕ :=
  (List.range COLS).filter (fun c => cell b 0 c == EMPTY)

/-- Bottom-up scan of `drop_piece`: checks rows `n-1, n-2, …, 0` in order,
returning the updated board at the first empty cell found. -/
def dropGo (b : Board) (col piece : ℕ) : ℕ → Option Board
  | 0 => none
  | r + 1 =>
      if cell b r col == EMPTY then some (setCell b r col piece)
      else dropGo b col piece r

/-- `drop_piece(board, col, piece)`: copy the board and place the piece in
the lowest empty row of `col`; `none` when the column is full. -/
def drop_piece (b : Board) (col piece : ℕ) : Option Board :=
  dropGo b col piece ROWS

/-- Total wrapper used inside the search loops, where the iterated column
is always valid so the `none` branch is never taken. -/
def dropD (b : Board) (col piece : ℕ) : Board := (drop_piece b col piece).getD b

/-- The four window tests of `check_win` at one origin `(r, c)`. -/
def winAt (b : Board) (piece r c : ℕ) : Bool :=
  (decide (c + 3 < COLS) && (List.range 4).all (fun i => cell b r (c + i) == piece))
  || (decide (r + 3 < ROWS) && (List.range 4).all (fun i => cell b (r + i) c == piece))
  || (decide (r + 3 < ROWS) && decide (c + 3 < COLS)
        && (List.range 4).all (fun i => cell b (r + i) (c + i) == piece))
  || (decide (r + 3 < ROWS) && decide (3 ≤ c)
        && (List.range 4).all (fun i => cell b (r + i) (c - i) == piece))

/-- `check_win(board, piece)`: some 4-window at some origin is all `piece`. -/
def check_win (b : Board) (piece : ℕ) : Bool :=
  (List.range ROWS).any fun r => (List.range COLS).any fun c => winAt b piece r c

/-- `is_terminal(board)`: a win for either side, or no valid column left. -/
def is_terminal (b : Board) : Bool :=
  check_win b PLAYER || check_win b AI || (get_valid_columns b).isEmpty

/-- `score_window(window, piece)`: heuristic value of one 4-cell window. -/
def score_window (w : List ℕ) (piece : ℕ) : ℤ :=
  let opp := if piece == AI then PLAYER else AI
  let p := w.count piece
  let e := w.count EMPTY
  let o := w.count opp
  if p == 4 then 100
  else if p == 3 && e == 1 then 5
  else if p == 2 && e == 2 then 2
  else if o == 3 && e == 1 then -4
  else 0

/-- The horizontal window of `score_position` at origin `(r, c)`. -/
def hWindow (b : Board) (r c : ℕ) : List ℕ := (List.range 4).map fun i => cell b r (c + i)

/-- The vertical window of `score_position` at origin `(r, c)`. -/
def vWindow (b : Board) (r c : ℕ) : List ℕ := (List.range 4).map fun i => cell b (r + i) c

/-- The ↘ diagonal window of `score_position` at origin `(r, c)`. -/
def d1Window (b : Board) (r c : ℕ) : List ℕ := (List.range 4).map fun i => cell b (r + i) (c + i)

/-- The ↙ diagonal window of `score_position` at origin `(r, c)`. -/
def d2Window (b : Board) (r c : ℕ) : List ℕ := (List.range 4).map fun i => cell b (r + i) (c - i)

/-- `score_position(board, piece)`: center-column bonus plus the sum of
`score_window` over the four direction scans of the source. -/
def score_position (b : Board) (piece : ℕ) : ℤ :=
  let center : List ℕ := (List.range ROWS).map fun r => cell b r (COLS / 2)
  let centerScore : ℤ := (center.count piece : ℤ) * 3
  let hs : ℤ := ((List.range ROWS).map fun r =>
    (((List.range (COLS - 3)).map fun c => score_window (hWindow b r c) piece).sum)).sum
  let vs : ℤ := ((List.range COLS).map fun c =>
    (((List.range (ROWS - 3)).map fun r => score_window (vWindow b r c) piece).sum)).sum
  let d1 : ℤ := ((List.range (ROWS - 3)).map fun r =>
    (((List.range (COLS - 3)).map fun c => score_window (d1Window b r c) piece).sum)).sum
  let d2 : ℤ := ((List.range (ROWS - 3)).map fun r =>
    (((List.range (COLS - 3)).map fun j => score_window (d2Window b r (3 + j)) piece).sum)).sum
  centerScore + hs + vs + d1 + d2

/-- Value returned by `minimax` at a terminal board (lines 199–204). -/
def leafVal (b : Board) : Option ℕ × XInt :=
  if check_win b AI then (none, xz 100000)
  else if check_win b PLAYER then (none, xz (-100000))
  else (none, xz 0)

/-- The maximizing loop of `minimax` (lines 208–219): `ev` is the score of
the recursive call one ply down, `beta` is fixed, `alpha` and the running
`value`/`best` evolve; the loop breaks as soon as `alpha ≥ beta`. -/
def maxLoop (ev : Board → XInt → XInt → XInt) (board : Board) (beta : XInt) :
    List ℕ → XInt → XInt → Option ℕ → Option ℕ × XInt
  | [], _, value, best => (best, value)
  | c :: rest, alpha, value, best =>
      let s := ev (dropD board c AI) alpha beta
      let value2 := if value < s then s else value
      let best2 := if value < s then some c else best
      let alpha2 := max alpha value2
      if beta ≤ alpha2 then (best2, value2)
      else maxLoop ev board beta rest alpha2 value2 best2

/-- The minimizing loop of `minimax` (lines 222–233), mirror image of
`maxLoop`: `alpha` fixed, `beta` and the running minimum evolve. -/
def minLoop (ev : Board → XInt → XInt → XInt) (board : Board) (alpha : XInt) :
    List ℕ → XInt → XInt → Option ℕ → Option ℕ × XInt
  | [], _, value, best => (best, value)
  | c :: rest, beta, value, best =>
      let s := ev (dropD board c PLAYER) alpha beta
      let value2 := if s < value then s else value
      let best2 := if s < value then some c else best
      let beta2 := min beta value2
      if beta2 ≤ alpha then (best2, value2)
      else minLoop ev board alpha rest beta2 value2 best2

/-- `minimax(board, depth, alpha, beta, is_maximizing)`; `pick` models
`random.choice(valid_cols)`, which seeds the running best column. -/
def minimax (pick : List ℕ → ℕ) : ℕ → Board → XInt → XInt → Bool → Option ℕ × XInt
  | 0, board, _, _, _ =>
      if is_terminal board then leafVal board
      else (none, xz (score_position board AI))
  | d + 1, board, alpha, beta, isMax =>
      if is_terminal board then leafVal board
      else
        let valid := get_valid_columns board
        if isMax then
          maxLoop (fun b a bt => (minimax pick d b a bt false).2) board beta
            valid alpha ⊥ (some (pick valid))
        else
          minLoop (fun b a bt => (minimax pick d b a bt true).2) board alpha
            valid beta ⊤ (some (pick valid))

/-- `ai_move(board, depth)`: root search, maximizing, with infinite
initial bounds; the wall-clock timing of the source is omitted. -/
def ai_move (pick : List ℕ → ℕ) (b : Board) (depth : ℕ) : Option ℕ × XInt :=
  minimax pick depth b ⊥ ⊤ true

/-- Modelled from the spec: the maximizing loop of exhaustive, unpruned
minimax — identical traversal and strict-improvement update, but no
alpha/beta bookkeeping and no break. -/
def maxLoopP (ev : Board → XInt) (board : Board) :
    List ℕ → XInt → Option ℕ → Option ℕ × XInt
  | [], value, best => (best, value)
  | c :: rest, value, best =>
      let s := ev (dropD board c AI)
      if value < s then maxLoopP ev board rest s (some c)
      else maxLoopP ev board rest value best

/-- Modelled from the spec: the minimizing loop of exhaustive minimax. -/
def minLoopP (ev : Board → XInt) (board : Board) :
    List ℕ → XInt → Option ℕ → Option ℕ × XInt
  | [], value, best => (best, value)
  | c :: rest, value, best =>
      let s := ev (dropD board c PLAYER)
      if s < value then minLoopP ev board rest s (some c)
      else minLoopP ev board rest value best

/-- Modelled from the spec: exhaustive (unpruned) minimax on the same
board and depth, the reference point of the alpha-beta refinement claim. -/
def minimaxPlain : ℕ → Board → Bool → Option ℕ × XInt
  | 0, board, _ =>
      if is_terminal board then leafVal board
      else (none, xz (score_position board AI))
  | d + 1, board, isMax =>
      if is_terminal board then leafVal board
      else
        let valid := get_valid_columns board
        if isMax then maxLoopP (fun b => (minimaxPlain d b false).2) board valid ⊥ none
        else minLoopP (fun b => (minimaxPlain d b true).2) board valid ⊤ none

/-- Default pick used for concrete evaluations: first valid column. -/
def pickHead (l : List ℕ) : ℕ := l.headD 0

/-- Alternative pick used to witness independence from the random draw. -/
def pickLast (l : List ℕ) : ℕ := l.getLastD 0

/-- Gravity invariant: in every column, a filled cell has only filled
cells below it (row indices grow downward). -/
def gravityInv (b : Board) : Prop :=
  ∀ c r r2, c < COLS → r < r2 → r2 < ROWS → cell b r c ≠ EMPTY → cell b r2 c ≠ EMPTY

/-- Boards reachable from the empty board by successful `drop_piece` moves. -/
inductive Reachable : Board → Prop
  | empty : Reachable create_board
  | step (b : Board) (c p : ℕ) (b2 : Board) : Reachable b → p = PLAYER ∨ p = AI →
      drop_piece b c p = some b2 → Reachable b2

/-- A board whose column 0 is completely full (used as concrete input). -/
def fullColBoard : Board :=
  [[1, 0, 0, 0, 0, 0, 0], [2, 0, 0, 0, 0, 0, 0], [1, 0, 0, 0, 0, 0, 0],
   [2, 0, 0, 0, 0, 0, 0], [1, 0, 0, 0, 0, 0, 0], [2, 0, 0, 0, 0, 0, 0]]

/-- A terminal board: the AI owns a completed horizontal run. -/
def winBoard : Board :=
  [[0, 0, 0, 0, 0, 0, 0], [0, 0, 0, 0, 0, 0, 0], [0, 0, 0, 0, 0, 0, 0],
   [0, 0, 0, 0, 0, 0, 0], [0, 0, 0, 0, 0, 0, 0], [2, 2, 2, 2, 0, 0, 0]]

/-- A non-terminal board where the AI threatens wins in columns 0 and 6. -/
def tieBoard : Board :=
  [[0, 0, 0, 0, 0, 0, 0], [0, 0, 0, 0, 0, 0, 0], [0, 0, 0, 0, 0, 0, 0],
   [2, 0, 0, 0, 0, 0, 2], [2, 0, 0, 0, 0, 0, 2], [2, 0, 1, 0, 0, 0, 2]]

/-- Maximum of a function over a list of columns, `⊥` for the empty list. -/
def listMax (f : ℕ → XInt) : List ℕ → XInt
  | [] => ⊥
  | c :: rest => max (f c) (listMax f rest)

/-- Minimum of a function over a list of columns, `⊤` for the empty list. -/
def listMin (f : ℕ → XInt) : List ℕ → XInt
  | [] => ⊤
  | c :: rest => min (f c) (listMin f rest)

/-- The coordinates of every 4-cell window scanned by `score_position`,
in scan order: horizontals, verticals, ↘ diagonals, ↙ diagonals. -/
def allWindowCoords : List (List (ℕ × ℕ)) :=
  ((List.range ROWS).flatMap fun r => (List.range (COLS - 3)).map fun c =>
    (List.range 4).map fun i => (r, c + i))
  ++ ((List.range COLS).flatMap fun c => (List.range (ROWS - 3)).map fun r =>
    (List.range 4).map fun i => (r + i, c))
  ++ ((List.range (ROWS - 3)).flatMap fun r => (List.range (COLS - 3)).map fun c =>
    (List.range 4).map fun i => (r + i, c + i))
  ++ ((List.range (ROWS - 3)).flatMap fun r => (List.range (COLS - 3)).map fun j =>
    (List.range 4).map fun i => (r + i, 3 + j - i))

/-! ### Facts about the extended score domain -/

theorem xz_ne_bot (z : ℤ) : xz z ≠ ⊥ := WithBot.coe_ne_bot

theorem xz_ne_top (z : ℤ) : xz z ≠ ⊤ := by
  simp only [xz]
  intro h
  exact WithTop.coe_ne_top (WithBot.coe_inj.mp h)

theorem bot_lt_xz (z : ℤ) : (⊥ : XInt) < xz z :=
  Ne.bot_lt (xz_ne_bot z)

theorem xz_lt_top (z : ℤ) : xz z < ⊤ := Ne.lt_top (xz_ne_top z)

/-! ### The drop operation (C4) -/

theorem dropGo_none (b : Board) (col piece : ℕ) :
    ∀ n, (∀ r, r < n → cell b r col ≠ EMPTY) → dropGo b col piece n = none := by
  intro n
  induction n with
  | zero => intro _; rfl
  | succ k ih =>
      intro h
      have hk : cell b k col ≠ EMPTY := h k (Nat.lt_succ_self k)
      simp only [dropGo, beq_iff_eq, if_neg hk]
      exact ih fun r hr => h r (Nat.lt_succ_of_lt hr)

theorem dropGo_some (b : Board) (col piece : ℕ) :
    ∀ n, (∃ r, r < n ∧ cell b r col = EMPTY) →
      ∃ rr, rr < n ∧ cell b rr col = EMPTY ∧
        (∀ r2, rr < r2 → r2 < n → cell b r2 col ≠ EMPTY) ∧
        dropGo b col piece n = some (setCell b rr col piece) := by
  intro n
  induction n with
  | zero => rintro ⟨r, hr, _⟩; exact absurd hr (Nat.not_lt_zero r)
  | succ k ih =>
      rintro ⟨r, hr, hre⟩
      by_cases hk : cell b k col = EMPTY
      · refine ⟨k, Nat.lt_succ_self k, hk, ?_, ?_⟩
        · intro r2 h1 h2
          omega
        · simp only [dropGo, beq_iff_eq, if_pos hk]
      · have hrk : r < k := by
          rcases Nat.lt_succ_iff_lt_or_eq.mp hr with h | h
          · exact h
          · exact absurd (h ▸ hre) hk
        obtain ⟨rr, h1, h2, h3, h4⟩ := ih ⟨r, hrk, hre⟩
        refine ⟨rr, Nat.lt_succ_of_lt h1, h2, ?_, ?_⟩
        · intro r2 hl hu
          rcases Nat.lt_succ_iff_lt_or_eq.mp hu with h | h
          · exact h3 r2 hl h
          · exact h ▸ hk
        · simp only [dropGo, beq_iff_eq, if_neg hk]
          exact h4

/-- C4 (amended): a drop into a full column yields `none` (an absent
board, the Python `None`), never an unchanged board; a drop into a
non-full column places the piece at the lowest empty row of the column,
leaving every other cell unchanged. -/
theorem drop_piece_spec (b : Board) (col side : ℕ) :
    ((∀ r, r < ROWS → cell b r col ≠ EMPTY) → drop_piece b col side = none)
    ∧ ((∃ r, r < ROWS ∧ cell b r col = EMPTY) →
        ∃ rr, rr < ROWS ∧ cell b rr col = EMPTY ∧
          (∀ r2, rr < r2 → r2 < ROWS → cell b r2 col ≠ EMPTY) ∧
          drop_piece b col side = some (setCell b rr col side)) := by
  constructor
  · intro h; exact dropGo_none b col side ROWS h
  · intro h; exact dropGo_some b col side ROWS h

/-- Witness for C4 at concrete inputs: column 0 of `fullColBoard` is full
and the drop returns `none`; on the empty board the drop lands in the
bottom row of column 3. -/
theorem drop_piece_spec_witness :
    drop_piece fullColBoard 0 AI = none
    ∧ drop_piece create_board 3 AI = some (setCell create_board 5 3 AI) := by
  constructor
  · exact (drop_piece_spec fullColBoard 0 AI).1 (by decide)
  · obtain ⟨rr, h1, h2, h3, h4⟩ := (drop_piece_spec create_board 3 AI).2 ⟨5, by decide, by decide⟩
    have hrr : rr = 5 := by
      by_contra hne
      have h5 : rr < 5 := Nat.lt_of_le_of_ne (Nat.le_of_lt_succ h1) hne
      exact h3 5 h5 (by decide) (by decide)
    exact hrr ▸ h4

/-- Counterexample to C4 as stated: on a full column the code returns the
absent board `none`; no `ColumnFull` error value exists anywhere in the
code, so the claimed error signalling is refuted at this input. -/
theorem drop_piece_full_returns_none : drop_piece fullColBoard 0 AI = none := by decide

/-! ### Terminal leaves of the search (C1) -/

/-- C1: whenever `is_terminal` holds, `minimax` returns exactly the
sentinel `+100000` when the AI has a run, `-100000` when the player has a
run (and the AI does not), and `0` otherwise — for every depth
(including 0), every alpha/beta bound and both node kinds; the heuristic
is never consulted. -/
theorem minimax_terminal_exact (pick : List ℕ → ℕ) (d : ℕ) (b : Board) (a bt : XInt)
    (m : Bool) (ht : is_terminal b = true) :
    (check_win b AI = true → minimax pick d b a bt m = (none, xz 100000))
    ∧ (check_win b AI = false → check_win b PLAYER = true →
        minimax pick d b a bt m = (none, xz (-100000)))
    ∧ (check_win b AI = false → check_win b PLAYER = false →
        minimax pick d b a bt m = (none, xz 0)) := by
  have hleaf : minimax pick d b a bt m = leafVal b := by
    cases d <;> simp [minimax, ht]
  refine ⟨fun h1 => ?_, fun h1 h2 => ?_, fun h1 h2 => ?_⟩
  · simp [hleaf, leafVal, h1]
  · simp [hleaf, leafVal, h1, h2]
  · simp [hleaf, leafVal, h1, h2]

/-- Witness for C1: `winBoard` is terminal with an AI run, and the search
at depth 0 returns the exact sentinel. -/
theorem minimax_terminal_exact_witness :
    is_terminal winBoard = true
    ∧ minimax pickHead 0 winBoard ⊥ ⊤ true = (none, xz 100000) :=
  ⟨by decide, (minimax_terminal_exact pickHead 0 winBoard ⊥ ⊤ true (by decide)).1 (by decide)⟩

/-! ### Depth handling (C8) -/

/-- C8 (amended): the engine performs no depth validation.  A search at
depth 0 on a non-terminal board silently returns the heuristic
evaluation `score_position board AI` with no column; no `InvalidDepth`
failure exists anywhere in the code. -/
theorem minimax_depth_zero (pick : List ℕ → ℕ) (b : Board) (a bt : XInt) (m : Bool)
    (h : is_terminal b = false) :
    minimax pick 0 b a bt m = (none, xz (score_position b AI)) := by
  simp [minimax, h]

/-- Witness for C8 (amended) at the empty board. -/
theorem minimax_depth_zero_witness :
    is_terminal create_board = false
    ∧ minimax pickHead 0 create_board ⊥ ⊤ true = (none, xz (score_position create_board AI)) :=
  ⟨by decide, minimax_depth_zero pickHead create_board ⊥ ⊤ true (by decide)⟩

/-- Counterexample to C8 as stated: at depth 0 the search on the empty
board returns the heuristic value (here 0) as an ordinary result — it
does not fail fast, contradicting the claimed `InvalidDepth` error. -/
theorem minimax_depth_zero_returns_heuristic :
    minimax pickHead 0 create_board ⊥ ⊤ true = (none, xz 0) := by decide

/-! ### Window scoring (C5) -/

theorem count_partition (w : List ℕ) (a b c : ℕ) (hab : a ≠ b) (hac : a ≠ c) (hbc : b ≠ c)
    (h : ∀ x ∈ w, x = a ∨ x = b ∨ x = c) :
    w.count a + w.count b + w.count c = w.length := by
  induction w with
  | nil => rfl
  | cons y ys ih =>
      have hy := h y (List.mem_cons_self y ys)
      have ihy := ih fun x hx => h x (List.mem_cons_of_mem y hx)
      rcases hy with rfl | rfl | rfl
      · simp [List.count_cons, Ne.symm hab, Ne.symm hac]
        omega
      · simp [List.count_cons, hab, Ne.symm hbc]
        omega
      · simp [List.count_cons, hac, hbc]
        omega

/-- C5: for a 4-cell window of valid cells and a valid perspective, with
`p`/`o`/`e` the counts of own, opponent and empty cells, the counts
partition the window and `score_window` returns, in priority order, 100,
5, 2, −4 or 0 exactly as claimed; at most one of the four scoring
conditions can hold. -/
theorem score_window_spec (w : List ℕ) (piece : ℕ)
    (hlen : w.length = 4)
    (hcells : ∀ x ∈ w, x = EMPTY ∨ x = PLAYER ∨ x = AI)
    (hpiece : piece = PLAYER ∨ piece = AI) :
    w.count piece + w.count (if piece == AI then PLAYER else AI) + w.count EMPTY = 4
    ∧ score_window w piece =
        (if w.count piece = 4 then 100
         else if w.count piece = 3 ∧ w.count EMPTY = 1 then 5
         else if w.count piece = 2 ∧ w.count EMPTY = 2 then 2
         else if w.count (if piece == AI then PLAYER else AI) = 3 ∧ w.count EMPTY = 1 then -4
         else 0)
    ∧ ¬(w.count piece = 4 ∧ w.count piece = 3 ∧ w.count EMPTY = 1)
    ∧ ¬(w.count piece = 4 ∧ w.count piece = 2 ∧ w.count EMPTY = 2)
    ∧ ¬(w.count piece = 4 ∧ w.count (if piece == AI then PLAYER else AI) = 3 ∧ w.count EMPTY = 1)
    ∧ ¬((w.count piece = 3 ∧ w.count EMPTY = 1) ∧ w.count piece = 2 ∧ w.count EMPTY = 2)
    ∧ ¬((w.count piece = 3 ∧ w.count EMPTY = 1)
        ∧ w.count (if piece == AI then PLAYER else AI) = 3 ∧ w.count EMPTY = 1)
    ∧ ¬((w.count piece = 2 ∧ w.count EMPTY = 2)
        ∧ w.count (if piece == AI then PLAYER else AI) = 3 ∧ w.count EMPTY = 1) := by
  have hpart : w.count piece + w.count (if piece == AI then PLAYER else AI)
      + w.count EMPTY = 4 := by
    rcases hpiece with rfl | rfl
    · have : w.count PLAYER + w.count AI + w.count EMPTY = w.length := by
        refine count_partition w PLAYER AI EMPTY (by decide) (by decide) (by decide) ?_
        intro x hx; rcases hcells x hx with h | h | h <;> simp [h]
      simp only [PLAYER, AI, EMPTY] at this ⊢
      simp only [hlen] at this
      simpa using this
    · have : w.count AI + w.count PLAYER + w.count EMPTY = w.length := by
        refine count_partition w AI PLAYER EMPTY (by decide) (by decide) (by decide) ?_
        intro x hx; rcases hcells x hx with h | h | h <;> simp [h]
      simp only [PLAYER, AI, EMPTY] at this ⊢
      simp only [hlen] at this
      simpa using this
  refine ⟨hpart, ?_, ?_, ?_, ?_, ?_, ?_, ?_⟩
  · simp only [score_window, Bool.and_eq_true, beq_iff_eq, decide_eq_true_eq]
  · omega
  · omega
  · omega
  · omega
  · omega
  · omega

/-- Witness for C5 at a concrete window of three AI pieces and one hole. -/
theorem score_window_spec_witness :
    (([2, 2, 2, 0] : List ℕ).length = 4
      ∧ score_window [2, 2, 2, 0] AI = 5)
    ∧ ([2, 2, 2, 0] : List ℕ).count AI + ([2, 2, 2, 0] : List ℕ).count PLAYER
        + ([2, 2, 2, 0] : List ℕ).count EMPTY = 4 := by
  have h := score_window_spec [2, 2, 2, 0] AI (by decide)
    (by intro x hx; fin_cases hx <;> simp [EMPTY, PLAYER, AI]) (Or.inr rfl)
  refine ⟨⟨by decide, ?_⟩, ?_⟩
  · rw [h.2.1]; decide
  · have := h.1; simpa using this

/-! ### Gravity invariant (C7) -/

theorem getD_set_general {α : Type} (l : List α) (i j : ℕ) (a d : α) :
    (l.set i a).getD j d = if i = j ∧ i < l.length then a else l.getD j d := by
  induction l generalizing i j with
  | nil => simp
  | cons y ys ih =>
      cases i with
      | zero =>
          cases j with
          | zero => simp
          | succ j2 => simp
      | succ i2 =>
          cases j with
          | zero => simp
          | succ j2 =>
              show (ys.set i2 a).getD j2 d
                  = if i2 + 1 = j2 + 1 ∧ i2 + 1 < ys.length + 1 then a else ys.getD j2 d
              rw [ih]
              by_cases h : i2 = j2 ∧ i2 < ys.length
              · rw [if_pos h, if_pos (by omega)]
              · rw [if_neg h, if_neg (by omega)]

theorem getD_replicate_general {α : Type} (n i : ℕ) (a d : α) :
    (List.replicate n a).getD i d = if i < n then a else d := by
  by_cases h : i < n
  · rw [if_pos h, List.getD_eq_getElem _ _ (by simpa using h), List.getElem_replicate]
  · rw [if_neg h, List.getD_eq_default _ _ (by simpa using Nat.le_of_not_lt h)]

theorem cell_setCell (b : Board) (r c v x y : ℕ) :
    cell (setCell b r c v) x y =
      if r = x ∧ r < b.length ∧ c = y ∧ c < (List.getD b r []).length then v
      else cell b x y := by
  unfold cell setCell
  rw [getD_set_general]
  by_cases h1 : r = x ∧ r < b.length
  · rw [if_pos h1]
    rw [getD_set_general]
    obtain ⟨rfl, hrlen⟩ := h1
    by_cases h2 : c = y ∧ c < (List.getD b r []).length
    · rw [if_pos h2, if_pos ⟨rfl, hrlen, h2.1, h2.2⟩]
    · rw [if_neg h2, if_neg (by tauto)]
  · rw [if_neg h1, if_neg (by tauto)]

theorem cell_create_board (r c : ℕ) : cell create_board r c = EMPTY := by
  unfold cell create_board
  rw [getD_replicate_general]
  by_cases hr : r < ROWS
  · rw [if_pos hr, getD_replicate_general]
    by_cases hc : c < COLS
    · rw [if_pos hc]
    · rw [if_neg hc]
  · rw [if_neg hr]
    simp

/-- C7: every board reachable from the empty board by successful drops
satisfies the gravity invariant, and a single successful `drop_piece`
preserves the invariant on any board that has it. -/
theorem gravity_reachable :
    (∀ b, Reachable b → gravityInv b)
    ∧ (∀ b col p b2, gravityInv b → p = PLAYER ∨ p = AI →
        drop_piece b col p = some b2 → gravityInv b2) := by
  have hp : ∀ b col p b2, gravityInv b → p = PLAYER ∨ p = AI →
      drop_piece b col p = some b2 → gravityInv b2 := by
    intro b col p b2 hinv hpiece hd
    have hex : ∃ r, r < ROWS ∧ cell b r col = EMPTY := by
      by_contra hno
      push_neg at hno
      have hnone := dropGo_none b col p ROWS hno
      simp only [drop_piece] at hd
      rw [hd] at hnone
      exact Option.noConfusion hnone
    obtain ⟨rr, hr1, hr2, hr3, hr4⟩ := dropGo_some b col p ROWS hex
    simp only [drop_piece] at hd
    rw [hr4] at hd
    have hb2 : setCell b rr col p = b2 := (Option.some.injEq _ _).mp hd
    subst hb2
    intro c r r2 hc hlt hr2R hne
    rw [cell_setCell] at hne ⊢
    have hpne : p ≠ EMPTY := by rcases hpiece with rfl | rfl <;> decide
    by_cases hA : rr = r2 ∧ rr < b.length ∧ col = c ∧ col < (List.getD b rr []).length
    · rw [if_pos hA]; exact hpne
    · rw [if_neg hA]
      by_cases hB : rr = r ∧ rr < b.length ∧ col = c ∧ col < (List.getD b rr []).length
      · obtain ⟨he1, _, he3, _⟩ := hB
        exact he3 ▸ hr3 r2 (he1 ▸ hlt) hr2R
      · rw [if_neg hB] at hne
        exact hinv c r r2 hc hlt hr2R hne
  refine ⟨?_, hp⟩
  intro b hb
  induction hb with
  | empty =>
      intro c r r2 _ _ _ hne
      exact absurd (cell_create_board r c) hne
  | step b0 c0 p0 b2 _ hpiece hd ih => exact hp b0 c0 p0 b2 ih hpiece hd

/-- Witness for C7: the board after one drop into the empty board is
reachable and satisfies the gravity invariant; the preservation part
applies to a further concrete drop. -/
theorem gravity_reachable_witness :
    gravityInv (setCell create_board 5 3 AI)
    ∧ gravityInv ((drop_piece (setCell create_board 5 3 AI) 3 PLAYER).getD []) := by
  have h1 : drop_piece create_board 3 AI = some (setCell create_board 5 3 AI) := by decide
  have hreach : Reachable (setCell create_board 5 3 AI) :=
    Reachable.step create_board 3 AI _ Reachable.empty (Or.inr rfl) h1
  have hg1 : gravityInv (setCell create_board 5 3 AI) := gravity_reachable.1 _ hreach
  have h2 : drop_piece (setCell create_board 5 3 AI) 3 PLAYER
      = some (setCell (setCell create_board 5 3 AI) 4 3 PLAYER) := by decide
  refine ⟨hg1, ?_⟩
  rw [h2]
  exact gravity_reachable.2 _ 3 PLAYER _ hg1 (Or.inl rfl) h2

/-! ### Search infrastructure: valid columns, finiteness, pick independence -/

theorem valid_ne_nil_of_not_terminal (b : Board) (h : is_terminal b = false) :
    get_valid_columns b ≠ [] := by
  simp only [is_terminal, Bool.or_eq_false_iff] at h
  intro hnil
  rw [hnil] at h
  exact absurd h.2 (by simp)

theorem maxLoop_finite (ev : Board → XInt → XInt → XInt) (board : Board) (beta : XInt)
    (hev : ∀ b a bt, ev b a bt ≠ ⊥ ∧ ev b a bt ≠ ⊤) :
    ∀ cols a v best, v ≠ ⊤ → (v ≠ ⊥ ∨ cols ≠ []) →
      (maxLoop ev board beta cols a v best).2 ≠ ⊥
      ∧ (maxLoop ev board beta cols a v best).2 ≠ ⊤ := by
  intro cols
  induction cols with
  | nil =>
      intro a v best hvt hvb
      have hvb2 : v ≠ ⊥ := by rcases hvb with h | h; exact h; exact absurd rfl h
      exact ⟨hvb2, hvt⟩
  | cons c rest ih =>
      intro a v best hvt _
      simp only [maxLoop]
      obtain ⟨hsb, hst⟩ := hev (dropD board c AI) a beta
      by_cases hlt : v < ev (dropD board c AI) a beta
      · rw [if_pos hlt, if_pos hlt]
        by_cases hbr : beta ≤ max a (ev (dropD board c AI) a beta)
        · rw [if_pos hbr]
          exact ⟨hsb, hst⟩
        · rw [if_neg hbr]
          exact ih _ _ _ hst (Or.inl hsb)
      · rw [if_neg hlt, if_neg hlt]
        have hvb3 : v ≠ ⊥ := by
          intro hb
          subst hb
          exact hlt (Ne.bot_lt hsb)
        by_cases hbr : beta ≤ max a v
        · rw [if_pos hbr]
          exact ⟨hvb3, hvt⟩
        · rw [if_neg hbr]
          exact ih _ _ _ hvt (Or.inl hvb3)

theorem minLoop_finite (ev : Board → XInt → XInt → XInt) (board : Board) (alpha : XInt)
    (hev : ∀ b a bt, ev b a bt ≠ ⊥ ∧ ev b a bt ≠ ⊤) :
    ∀ cols bt v best, v ≠ ⊥ → (v ≠ ⊤ ∨ cols ≠ []) →
      (minLoop ev board alpha cols bt v best).2 ≠ ⊥
      ∧ (minLoop ev board alpha cols bt v best).2 ≠ ⊤ := by
  intro cols
  induction cols with
  | nil =>
      intro bt v best hvb hvt
      have hvt2 : v ≠ ⊤ := by rcases hvt with h | h; exact h; exact absurd rfl h
      exact ⟨hvb, hvt2⟩
  | cons c rest ih =>
      intro bt v best hvb _
      simp only [minLoop]
      obtain ⟨hsb, hst⟩ := hev (dropD board c PLAYER) alpha bt
      by_cases hlt : ev (dropD board c PLAYER) alpha bt < v
      · rw [if_pos hlt, if_pos hlt]
        by_cases hbr : min bt (ev (dropD board c PLAYER) alpha bt) ≤ alpha
        · rw [if_pos hbr]
          exact ⟨hsb, hst⟩
        · rw [if_neg hbr]
          exact ih _ _ _ hsb (Or.inl hst)
      · rw [if_neg hlt, if_neg hlt]
        have hvt3 : v ≠ ⊤ := by
          intro ht
          subst ht
          exact hlt (Ne.lt_top hst)
        by_cases hbr : min bt v ≤ alpha
        · rw [if_pos hbr]
          exact ⟨hvb, hvt3⟩
        · rw [if_neg hbr]
          exact ih _ _ _ hvb (Or.inl hvt3)

theorem leafVal_finite (b : Board) : (leafVal b).2 ≠ ⊥ ∧ (leafVal b).2 ≠ ⊤ := by
  unfold leafVal
  by_cases h1 : check_win b AI
  · simp [h1, xz_ne_bot, xz_ne_top]
  · by_cases h2 : check_win b PLAYER <;> simp [h1, h2, xz_ne_bot, xz_ne_top]

theorem minimax_finite (pick : List ℕ → ℕ) :
    ∀ (d : ℕ) (b : Board) (a bt : XInt) (m : Bool),
      (minimax pick d b a bt m).2 ≠ ⊥ ∧ (minimax pick d b a bt m).2 ≠ ⊤ := by
  intro d
  induction d with
  | zero =>
      intro b a bt m
      by_cases ht : is_terminal b
      · simp only [minimax, if_pos ht]
        exact leafVal_finite b
      · simp only [minimax, if_neg ht]
        exact ⟨xz_ne_bot _, xz_ne_top _⟩
  | succ k ih =>
      intro b a bt m
      by_cases ht : is_terminal b
      · simp only [minimax, if_pos ht]
        exact leafVal_finite b
      · have hvalid := valid_ne_nil_of_not_terminal b (by simpa using ht)
        simp only [minimax, if_neg ht]
        by_cases hm : m
        · rw [if_pos hm]
          exact maxLoop_finite _ b bt (fun b2 a2 bt2 => ih b2 a2 bt2 false) _ a ⊥ _
            (by decide) (Or.inr hvalid)
        · rw [if_neg hm]
          exact minLoop_finite _ b a (fun b2 a2 bt2 => ih b2 a2 bt2 true) _ bt ⊤ _
            (by decide) (Or.inr hvalid)

theorem maxLoop_best_irrel (ev : Board → XInt → XInt → XInt) (board : Board) (beta : XInt)
    (hev : ∀ b a bt, ev b a bt ≠ ⊥) (c : ℕ) (rest : List ℕ) (a : XInt)
    (best1 best2 : Option ℕ) :
    maxLoop ev board beta (c :: rest) a ⊥ best1
      = maxLoop ev board beta (c :: rest) a ⊥ best2 := by
  simp only [maxLoop]
  have hs : (⊥ : XInt) < ev (dropD board c AI) a beta := Ne.bot_lt (hev _ _ _)
  simp only [if_pos hs]

theorem minLoop_best_irrel (ev : Board → XInt → XInt → XInt) (board : Board) (alpha : XInt)
    (hev : ∀ b a bt, ev b a bt ≠ ⊤) (c : ℕ) (rest : List ℕ) (bt : XInt)
    (best1 best2 : Option ℕ) :
    minLoop ev board alpha (c :: rest) bt ⊤ best1
      = minLoop ev board alpha (c :: rest) bt ⊤ best2 := by
  simp only [minLoop]
  have hs : ev (dropD board c PLAYER) alpha bt < ⊤ := Ne.lt_top (hev _ _ _)
  simp only [if_pos hs]

/-- The full result of `minimax` (column and value) does not depend on
the pick function that models `random.choice`. -/
theorem minimax_pick_irrel (pick1 pick2 : List ℕ → ℕ) :
    ∀ (d : ℕ) (b : Board) (a bt : XInt) (m : Bool),
      minimax pick1 d b a bt m = minimax pick2 d b a bt m := by
  intro d
  induction d with
  | zero => intro b a bt m; rfl
  | succ k ih =>
      intro b a bt m
      by_cases ht : is_terminal b
      · simp only [minimax, if_pos ht]
      · have hvalid := valid_ne_nil_of_not_terminal b (by simpa using ht)
        obtain ⟨c, rest, hcols⟩ : ∃ c rest, get_valid_columns b = c :: rest := by
          cases hcl : get_valid_columns b with
          | nil => exact absurd hcl hvalid
          | cons c rest => exact ⟨c, rest, rfl⟩
        have hevEq : (fun b2 a2 bt2 => (minimax pick1 k b2 a2 bt2 false).2)
            = fun b2 a2 bt2 => (minimax pick2 k b2 a2 bt2 false).2 := by
          funext b2 a2 bt2
          rw [ih]
        have hevEq2 : (fun b2 a2 bt2 => (minimax pick1 k b2 a2 bt2 true).2)
            = fun b2 a2 bt2 => (minimax pick2 k b2 a2 bt2 true).2 := by
          funext b2 a2 bt2
          rw [ih]
        by_cases hm : m
        · simp only [minimax, if_neg ht, if_pos hm, hcols, hevEq]
          exact maxLoop_best_irrel _ b bt
            (fun b2 a2 bt2 => (minimax_finite pick2 k b2 a2 bt2 false).1) c rest a _ _
        · simp only [minimax, if_neg ht, if_neg hm, hcols, hevEq2]
          exact minLoop_best_irrel _ b a
            (fun b2 a2 bt2 => (minimax_finite pick2 k b2 a2 bt2 true).2) c rest bt _ _

/-- C10: for a non-terminal board and depth at least 1, the full
`(column, value)` result of the root search is identical for any two
random sources, because the randomly seeded best column is overwritten
on the first (always strictly improving, always finite) child score
before any prune can fire. -/
theorem minimax_random_independent (pick1 pick2 : List ℕ → ℕ) (d : ℕ) (b : Board)
    (a bt : XInt) (m : Bool) (_hterm : is_terminal b = false) (_hd : 1 ≤ d) :
    minimax pick1 d b a bt m = minimax pick2 d b a bt m :=
  minimax_pick_irrel pick1 pick2 d b a bt m

/-- Witness for C10 at the empty board, depth 1, with two picks that
disagree on the initial column draw. -/
theorem minimax_random_independent_witness :
    is_terminal create_board = false ∧ (1 : ℕ) ≤ 1
    ∧ minimax pickHead 1 create_board ⊥ ⊤ true = minimax pickLast 1 create_board ⊥ ⊤ true :=
  ⟨by decide, le_refl 1,
    minimax_random_independent pickHead pickLast 1 create_board ⊥ ⊤ true (by decide) (le_refl 1)⟩

/-! ### Depth-1 search on the empty board (C9) -/

/-- C9: on the empty board, the depth-1 root search (maximizing, bounds
`(-∞, +∞)`) returns the center column 3 for every random source, and the
heuristic score of the center move strictly exceeds that of every other
legal column. -/
theorem ai_move_empty_center (pick : List ℕ → ℕ) :
    (ai_move pick create_board 1).1 = some 3
    ∧ ∀ c ∈ get_valid_columns create_board, c ≠ 3 →
        score_position (dropD create_board c AI) AI
          < score_position (dropD create_board 3 AI) AI := by
  constructor
  · rw [ai_move, minimax_pick_irrel pick pickHead]
    decide
  · decide

/-- Witness for C9 at the concrete default pick. -/
theorem ai_move_empty_center_witness :
    (ai_move pickHead create_board 1).1 = some 3 :=
  (ai_move_empty_center pickHead).1

/-! ### Alpha-beta versus exhaustive minimax (C2) -/

theorem ite_lt_eq_max (v s : XInt) : (if v < s then s else v) = max v s := by
  by_cases h : v < s
  · rw [if_pos h, max_eq_right (le_of_lt h)]
  · rw [if_neg h, max_eq_left (le_of_not_lt h)]

theorem ite_lt_eq_min (v s : XInt) : (if s < v then s else v) = min v s := by
  by_cases h : s < v
  · rw [if_pos h, min_eq_right (le_of_lt h)]
  · rw [if_neg h, min_eq_left (le_of_not_lt h)]

theorem maxLoopP_val (ev : Board → XInt) (board : Board) :
    ∀ cols v best, (maxLoopP ev board cols v best).2
      = max v (listMax (fun c => ev (dropD board c AI)) cols) := by
  intro cols
  induction cols with
  | nil => intro v best; simp [maxLoopP, listMax]
  | cons c rest ih =>
      intro v best
      simp only [maxLoopP, listMax]
      by_cases h : v < ev (dropD board c AI)
      · rw [if_pos h, ih, max_eq_right (le_trans (le_of_lt h) (le_max_left _ _))]
      · rw [if_neg h, ih, ← max_assoc, max_eq_left (le_of_not_lt h)]

theorem minLoopP_val (ev : Board → XInt) (board : Board) :
    ∀ cols v best, (minLoopP ev board cols v best).2
      = min v (listMin (fun c => ev (dropD board c PLAYER)) cols) := by
  intro cols
  induction cols with
  | nil => intro v best; simp [minLoopP, listMin]
  | cons c rest ih =>
      intro v best
      simp only [minLoopP, listMin]
      by_cases h : ev (dropD board c PLAYER) < v
      · rw [if_pos h, ih, min_eq_right (le_trans (min_le_left _ _) (le_of_lt h))]
      · rw [if_neg h, ih, ← min_assoc, min_eq_left (le_of_not_lt h)]

/-- Fail-soft bounds for the pruned maximizing loop: relative to the true
child values `tv`, the loop result is exact strictly inside the window
and a sound bound when it fails low or high. -/
theorem maxLoop_ab (ev : Board → XInt → XInt → XInt) (tv : Board → XInt)
    (board : Board) (beta : XInt)
    (hev : ∀ b a, a < beta →
      (a < ev b a beta → ev b a beta ≤ tv b) ∧ (ev b a beta < beta → tv b ≤ ev b a beta)) :
    ∀ cols a v best, v ≤ a → a < beta →
      v ≤ (maxLoop ev board beta cols a v best).2
      ∧ (a < (maxLoop ev board beta cols a v best).2 →
          (maxLoop ev board beta cols a v best).2
            ≤ max v (listMax (fun c => tv (dropD board c AI)) cols))
      ∧ ((maxLoop ev board beta cols a v best).2 < beta →
          max v (listMax (fun c => tv (dropD board c AI)) cols)
            ≤ (maxLoop ev board beta cols a v best).2) := by
  intro cols
  induction cols with
  | nil =>
      intro a v best _ _
      refine ⟨le_refl v, fun _ => ?_, fun _ => ?_⟩ <;> simp [maxLoop, listMax]
  | cons c rest ih =>
      intro a v best hva hab
      simp only [maxLoop, ite_lt_eq_max, listMax]
      by_cases hbr : beta ≤ max a (max v (ev (dropD board c AI) a beta))
      · rw [if_pos hbr]
        have hbs : beta ≤ ev (dropD board c AI) a beta := by
          rw [← max_assoc, max_eq_left hva] at hbr
          rcases le_max_iff.mp hbr with h | h
          · exact absurd h (not_le_of_lt hab)
          · exact h
        have has : a < ev (dropD board c AI) a beta := lt_of_lt_of_le hab hbs
        have hvs : v < ev (dropD board c AI) a beta := lt_of_le_of_lt hva has
        have hv2 : max v (ev (dropD board c AI) a beta) = ev (dropD board c AI) a beta :=
          max_eq_right (le_of_lt hvs)
        refine ⟨?_, ?_, ?_⟩
        · rw [hv2]
          exact le_of_lt hvs
        · intro _
          rw [hv2]
          exact le_trans ((hev _ a hab).1 has)
            (le_trans (le_max_left _ _) (le_max_right v _))
        · intro hVb
          rw [hv2] at hVb
          exact absurd (lt_of_le_of_lt hbs hVb) (lt_irrefl beta)
      · rw [if_neg hbr]
        have h2b : max a (max v (ev (dropD board c AI) a beta)) < beta := lt_of_not_le hbr
        have hsb : ev (dropD board c AI) a beta < beta :=
          lt_of_le_of_lt (le_trans (le_max_right v _) (le_max_right a _)) h2b
        have hts : tv (dropD board c AI) ≤ ev (dropD board c AI) a beta := (hev _ a hab).2 hsb
        obtain ⟨I1, I2, I3⟩ := ih (max a (max v (ev (dropD board c AI) a beta)))
          (max v (ev (dropD board c AI) a beta))
          (if v < ev (dropD board c AI) a beta then some c else best)
          (le_max_right _ _) h2b
        refine ⟨?_, ?_, ?_⟩
        · exact le_trans (le_max_left _ _) I1
        · intro haV
          by_cases hc : max a (max v (ev (dropD board c AI) a beta))
              < (maxLoop ev board beta rest (max a (max v (ev (dropD board c AI) a beta)))
                  (max v (ev (dropD board c AI) a beta))
                  (if v < ev (dropD board c AI) a beta then some c else best)).2
          · have h2 := I2 hc
            by_cases has : a < ev (dropD board c AI) a beta
            · have hst := (hev _ a hab).1 has
              refine le_trans h2 ?_
              rw [max_assoc]
              exact max_le_max (le_refl v)
                (max_le_max hst (le_refl _))
            · have hsa : ev (dropD board c AI) a beta ≤ a := le_of_not_lt has
              have hv2a : max v (ev (dropD board c AI) a beta) ≤ a := max_le hva hsa
              rcases le_max_iff.mp h2 with h | h
              · exact absurd (lt_of_lt_of_le haV (le_trans h hv2a)) (lt_irrefl a)
              · exact le_trans h (le_trans (le_max_right (tv (dropD board c AI)) _)
                  (le_max_right v _))
          · have hVle := le_of_not_lt hc
            rcases le_max_iff.mp hVle with h | h
            · exact absurd (lt_of_lt_of_le haV h) (lt_irrefl a)
            · have hveq := le_antisymm h I1
              have hvs : v < ev (dropD board c AI) a beta := by
                by_contra hns
                rw [hveq, max_eq_left (le_of_not_lt hns)] at haV
                exact absurd (lt_of_lt_of_le haV hva) (lt_irrefl a)
              have hVs : (maxLoop ev board beta rest
                  (max a (max v (ev (dropD board c AI) a beta)))
                  (max v (ev (dropD board c AI) a beta))
                  (if v < ev (dropD board c AI) a beta then some c else best)).2
                  = ev (dropD board c AI) a beta := by
                rw [hveq, max_eq_right (le_of_lt hvs)]
              have has : a < ev (dropD board c AI) a beta := by
                rw [hVs] at haV
                exact haV
              rw [hVs]
              exact le_trans ((hev _ a hab).1 has)
                (le_trans (le_max_left _ _) (le_max_right v _))
        · intro hVb
          have h3 := I3 hVb
          have hvV := le_trans (le_trans (le_max_left v (ev (dropD board c AI) a beta))
            (le_max_left _ _)) h3
          have hsV := le_trans (le_trans (le_max_right v (ev (dropD board c AI) a beta))
            (le_max_left _ _)) h3
          have hLV := le_trans (le_max_right (max v (ev (dropD board c AI) a beta)) _) h3
          exact max_le hvV (max_le (le_trans hts hsV) hLV)

/-- Fail-soft bounds for the pruned minimizing loop, mirror image of
`maxLoop_ab`. -/
theorem minLoop_ab (ev : Board → XInt → XInt → XInt) (tv : Board → XInt)
    (board : Board) (alpha : XInt)
    (hev : ∀ b bt, alpha < bt →
      (alpha < ev b alpha bt → ev b alpha bt ≤ tv b)
      ∧ (ev b alpha bt < bt → tv b ≤ ev b alpha bt)) :
    ∀ cols bt v best, bt ≤ v → alpha < bt →
      (minLoop ev board alpha cols bt v best).2 ≤ v
      ∧ ((minLoop ev board alpha cols bt v best).2 < bt →
          min v (listMin (fun c => tv (dropD board c PLAYER)) cols)
            ≤ (minLoop ev board alpha cols bt v best).2)
      ∧ (alpha < (minLoop ev board alpha cols bt v best).2 →
          (minLoop ev board alpha cols bt v best).2
            ≤ min v (listMin (fun c => tv (dropD board c PLAYER)) cols)) := by
  intro cols
  induction cols with
  | nil =>
      intro bt v best _ _
      refine ⟨le_refl v, fun _ => ?_, fun _ => ?_⟩ <;> simp [minLoop, listMin]
  | cons c rest ih =>
      intro bt v best hbv hab
      simp only [minLoop, ite_lt_eq_min, listMin]
      by_cases hbr : min bt (min v (ev (dropD board c PLAYER) alpha bt)) ≤ alpha
      · rw [if_pos hbr]
        have hsa : ev (dropD board c PLAYER) alpha bt ≤ alpha := by
          rw [← min_assoc, min_eq_left hbv] at hbr
          rcases min_le_iff.mp hbr with h | h
          · exact absurd h (not_le_of_lt hab)
          · exact h
        have has : ev (dropD board c PLAYER) alpha bt < bt := lt_of_le_of_lt hsa hab
        have hvs : ev (dropD board c PLAYER) alpha bt < v := lt_of_lt_of_le has hbv
        have hv2 : min v (ev (dropD board c PLAYER) alpha bt)
            = ev (dropD board c PLAYER) alpha bt := min_eq_right (le_of_lt hvs)
        refine ⟨?_, ?_, ?_⟩
        · rw [hv2]
          exact le_of_lt hvs
        · intro _
          rw [hv2]
          exact le_trans (le_trans (min_le_right v _) (min_le_left _ _)) ((hev _ bt hab).2 has)
        · intro haV
          rw [hv2] at haV
          exact absurd (lt_of_lt_of_le haV hsa) (lt_irrefl alpha)
      · rw [if_neg hbr]
        have h2b : alpha < min bt (min v (ev (dropD board c PLAYER) alpha bt)) :=
          lt_of_not_le hbr
        have hsb : alpha < ev (dropD board c PLAYER) alpha bt :=
          lt_of_lt_of_le h2b (le_trans (min_le_right bt _) (min_le_right v _))
        have hts : ev (dropD board c PLAYER) alpha bt ≤ tv (dropD board c PLAYER) :=
          (hev _ bt hab).1 hsb
        obtain ⟨I1, I2, I3⟩ := ih (min bt (min v (ev (dropD board c PLAYER) alpha bt)))
          (min v (ev (dropD board c PLAYER) alpha bt))
          (if ev (dropD board c PLAYER) alpha bt < v then some c else best)
          (min_le_right _ _) h2b
        refine ⟨?_, ?_, ?_⟩
        · exact le_trans I1 (min_le_left _ _)
        · intro hVb
          by_cases hc : (minLoop ev board alpha rest
              (min bt (min v (ev (dropD board c PLAYER) alpha bt)))
              (min v (ev (dropD board c PLAYER) alpha bt))
              (if ev (dropD board c PLAYER) alpha bt < v then some c else best)).2
              < min bt (min v (ev (dropD board c PLAYER) alpha bt))
          · have h2 := I2 hc
            by_cases has : ev (dropD board c PLAYER) alpha bt < bt
            · have hst := (hev _ bt hab).2 has
              refine le_trans ?_ h2
              rw [← min_assoc]
              exact min_le_min (min_le_min (le_refl v) hst) (le_refl _)
            · have hsa : bt ≤ ev (dropD board c PLAYER) alpha bt := le_of_not_lt has
              have hv2a : bt ≤ min v (ev (dropD board c PLAYER) alpha bt) := le_min hbv hsa
              rcases min_le_iff.mp h2 with h | h
              · exact absurd (lt_of_le_of_lt (le_trans hv2a h) hVb) (lt_irrefl bt)
              · exact le_trans (le_trans (min_le_right v _)
                  (min_le_right (tv (dropD board c PLAYER)) _)) h
          · have hVle := le_of_not_lt hc
            rcases min_le_iff.mp hVle with h | h
            · exact absurd (lt_of_le_of_lt h hVb) (lt_irrefl bt)
            · have hveq := le_antisymm I1 h
              have hvs : ev (dropD board c PLAYER) alpha bt < v := by
                by_contra hns
                rw [hveq, min_eq_left (le_of_not_lt hns)] at hVb
                exact absurd (lt_of_le_of_lt hbv hVb) (lt_irrefl bt)
              have hVs : (minLoop ev board alpha rest
                  (min bt (min v (ev (dropD board c PLAYER) alpha bt)))
                  (min v (ev (dropD board c PLAYER) alpha bt))
                  (if ev (dropD board c PLAYER) alpha bt < v then some c else best)).2
                  = ev (dropD board c PLAYER) alpha bt := by
                rw [hveq, min_eq_right (le_of_lt hvs)]
              have has : ev (dropD board c PLAYER) alpha bt < bt := by
                rw [hVs] at hVb
                exact hVb
              rw [hVs]
              exact le_trans (le_trans (min_le_right v _) (min_le_left _ _))
                ((hev _ bt hab).2 has)
        · intro haV
          have h3 := I3 haV
          have hvV := le_trans h3 (le_trans (min_le_left _ _) (min_le_left v _))
          have hsV := le_trans h3 (le_trans (min_le_left _ _) (min_le_right v _))
          have hLV := le_trans h3 (min_le_right _ _)
          exact le_min hvV (le_min (le_trans hsV hts) hLV)

/-- Two-sided fail-soft specification of `minimax` against exhaustive
minimax, for any window `a < bt`; by induction on depth. -/
theorem minimax_ab_spec (pick : List ℕ → ℕ) :
    ∀ (d : ℕ) (b : Board) (a bt : XInt) (m : Bool), a < bt →
      (a < (minimax pick d b a bt m).2 →
        (minimax pick d b a bt m).2 ≤ (minimaxPlain d b m).2)
      ∧ ((minimax pick d b a bt m).2 < bt →
        (minimaxPlain d b m).2 ≤ (minimax pick d b a bt m).2) := by
  intro d
  induction d with
  | zero =>
      intro b a bt m _
      have he : minimax pick 0 b a bt m = minimaxPlain 0 b m := by
        by_cases ht : is_terminal b <;> simp [minimax, minimaxPlain, ht]
      rw [he]
      exact ⟨fun _ => le_refl _, fun _ => le_refl _⟩
  | succ k ih =>
      intro b a bt m hab
      by_cases ht : is_terminal b
      · have h1 : minimax pick (k + 1) b a bt m = leafVal b := by simp [minimax, ht]
        have h2 : minimaxPlain (k + 1) b m = leafVal b := by simp [minimaxPlain, ht]
        rw [h1, h2]
        exact ⟨fun _ => le_refl _, fun _ => le_refl _⟩
      · by_cases hm : m
        · have h1 : minimax pick (k + 1) b a bt m
              = maxLoop (fun b2 a2 bt2 => (minimax pick k b2 a2 bt2 false).2) b bt
                  (get_valid_columns b) a ⊥ (some (pick (get_valid_columns b))) := by
            simp [minimax, ht, hm]
          have h2 : (minimaxPlain (k + 1) b m).2
              = max ⊥ (listMax (fun c => (minimaxPlain k (dropD b c AI) false).2)
                  (get_valid_columns b)) := by
            simp [minimaxPlain, ht, hm, maxLoopP_val]
          obtain ⟨_, L2, L3⟩ := maxLoop_ab
            (fun b2 a2 bt2 => (minimax pick k b2 a2 bt2 false).2)
            (fun b2 => (minimaxPlain k b2 false).2) b bt
            (fun b2 a2 hab2 => ih b2 a2 bt false hab2)
            (get_valid_columns b) a ⊥ (some (pick (get_valid_columns b))) bot_le hab
          rw [h1, h2]
          exact ⟨L2, L3⟩
        · have h1 : minimax pick (k + 1) b a bt m
              = minLoop (fun b2 a2 bt2 => (minimax pick k b2 a2 bt2 true).2) b a
                  (get_valid_columns b) bt ⊤ (some (pick (get_valid_columns b))) := by
            simp [minimax, ht, hm]
          have h2 : (minimaxPlain (k + 1) b m).2
              = min ⊤ (listMin (fun c => (minimaxPlain k (dropD b c PLAYER) true).2)
                  (get_valid_columns b)) := by
            simp [minimaxPlain, ht, hm, minLoopP_val]
          obtain ⟨_, M2, M3⟩ := minLoop_ab
            (fun b2 a2 bt2 => (minimax pick k b2 a2 bt2 true).2)
            (fun b2 => (minimaxPlain k b2 true).2) b a
            (fun b2 bt2 hab2 => ih b2 a bt2 true hab2)
            (get_valid_columns b) bt ⊤ (some (pick (get_valid_columns b))) le_top hab
          rw [h1, h2]
          exact ⟨M3, M2⟩

/-- At the full window the pruned value coincides with the plain value. -/
theorem minimax_root_eq_plain (pick : List ℕ → ℕ) (d : ℕ) (b : Board) (m : Bool) :
    (minimax pick d b ⊥ ⊤ m).2 = (minimaxPlain d b m).2 := by
  have hbt : (⊥ : XInt) < ⊤ := by decide
  obtain ⟨h1, h2⟩ := minimax_ab_spec pick d b ⊥ ⊤ m hbt
  obtain ⟨hb, ht⟩ := minimax_finite pick d b ⊥ ⊤ m
  exact le_antisymm (h1 (Ne.bot_lt hb)) (h2 (Ne.lt_top ht))

/-- C2: for every board, depth, node kind and random source, the pruned
search called with initial bounds `(-∞, +∞)` returns the same best value
as exhaustive unpruned minimax. -/
theorem alphabeta_value_eq_plain (pick : List ℕ → ℕ) (d : ℕ) (b : Board) (m : Bool) :
    (minimax pick d b ⊥ ⊤ m).2 = (minimaxPlain d b m).2 :=
  minimax_root_eq_plain pick d b m

/-- Witness for C2 at a concrete board and depth. -/
theorem alphabeta_value_eq_plain_witness :
    (minimax pickHead 2 tieBoard ⊥ ⊤ true).2 = (minimaxPlain 2 tieBoard true).2 :=
  alphabeta_value_eq_plain pickHead 2 tieBoard true

/-! ### Tie-break behaviour at the maximizing root (C3) -/

theorem listMax_ge (f : ℕ → XInt) :
    ∀ cols c, c ∈ cols → f c ≤ listMax f cols := by
  intro cols
  induction cols with
  | nil => intro c hc; exact absurd hc (List.not_mem_nil c)
  | cons c0 rest ih =>
      intro c hc
      rcases List.mem_cons.mp hc with rfl | hmem
      · exact le_max_left _ _
      · exact le_trans (ih c hmem) (le_max_right _ _)

/-- At the root window `beta = ⊤` with `alpha` equal to the running
value, the pruned maximizing loop never breaks and follows the plain
loop exactly, column choice included. -/
theorem maxLoop_top_eq_plain (ev : Board → XInt → XInt → XInt) (tv : Board → XInt)
    (board : Board)
    (hev : ∀ b a, a ≠ ⊤ →
      ev b a ⊤ ≠ ⊤ ∧ tv b ≤ ev b a ⊤ ∧ (a < ev b a ⊤ → ev b a ⊤ = tv b)) :
    ∀ cols v best, v ≠ ⊤ →
      maxLoop ev board ⊤ cols v v best = maxLoopP tv board cols v best := by
  intro cols
  induction cols with
  | nil => intro v best _; rfl
  | cons c rest ih =>
      intro v best hvT
      obtain ⟨hsT, hts, hexact⟩ := hev (dropD board c AI) v hvT
      simp only [maxLoop, maxLoopP]
      by_cases hlt : v < ev (dropD board c AI) v ⊤
      · have hseq := hexact hlt
        have hmax : max v (ev (dropD board c AI) v ⊤) = ev (dropD board c AI) v ⊤ :=
          max_eq_right (le_of_lt hlt)
        have hnb : ¬(⊤ ≤ max v (ev (dropD board c AI) v ⊤)) := by
          rw [hmax]
          intro h
          exact hsT (top_le_iff.mp h)
        rw [if_pos hlt, if_pos hlt, if_neg hnb, hmax]
        have hlt2 : v < tv (dropD board c AI) := hseq ▸ hlt
        rw [if_pos hlt2, ih _ _ hsT, hseq]
      · have hle : ev (dropD board c AI) v ⊤ ≤ v := le_of_not_lt hlt
        have hnlt2 : ¬(v < tv (dropD board c AI)) :=
          not_lt_of_le (le_trans hts hle)
        have hnb : ¬(⊤ ≤ max v v) := by
          rw [max_self]
          intro h
          exact hvT (top_le_iff.mp h)
        rw [if_neg hlt, if_neg hlt, if_neg hnb, if_neg hnlt2, max_self]
        exact ih _ _ hvT

/-- The plain maximizing loop keeps the seeded best column when nothing
improves on the running value, and otherwise returns the first column of
the (strictly sorted) list attaining the final maximum. -/
theorem maxLoopP_argmax (tv : Board → XInt) (board : Board) :
    ∀ cols v best,
      ((∀ c ∈ cols, tv (dropD board c AI) ≤ v) → maxLoopP tv board cols v best = (best, v))
      ∧ ((∃ c ∈ cols, v < tv (dropD board c AI)) → List.Pairwise (· < ·) cols →
          ∃ c ∈ cols, (maxLoopP tv board cols v best).1 = some c
            ∧ tv (dropD board c AI) = (maxLoopP tv board cols v best).2
            ∧ ∀ c2 ∈ cols, c2 < c →
                tv (dropD board c2 AI) < (maxLoopP tv board cols v best).2) := by
  intro cols
  induction cols with
  | nil =>
      intro v best
      refine ⟨fun _ => rfl, fun hex _ => ?_⟩
      obtain ⟨c, hc, _⟩ := hex
      exact absurd hc (List.not_mem_nil c)
  | cons c rest ih =>
      intro v best
      constructor
      · intro hall
        have hnlt : ¬(v < tv (dropD board c AI)) :=
          not_lt_of_le (hall c (List.mem_cons_self c rest))
        simp only [maxLoopP, if_neg hnlt]
        exact (ih v best).1 fun c2 hc2 => hall c2 (List.mem_cons_of_mem c hc2)
      · intro hex hpair
        have hpair2 := List.Pairwise.sublist (List.sublist_cons_self c rest) hpair
        have hhead : ∀ c2 ∈ rest, c < c2 := fun c2 h =>
          (List.pairwise_cons.mp hpair).1 c2 h
        by_cases hlt : v < tv (dropD board c AI)
        · simp only [maxLoopP, if_pos hlt]
          by_cases hrest : ∃ c2 ∈ rest, tv (dropD board c AI) < tv (dropD board c2 AI)
          · obtain ⟨cs, hcsmem, h1, h2, h3⟩ :=
              (ih (tv (dropD board c AI)) (some c)).2 hrest hpair2
            refine ⟨cs, List.mem_cons_of_mem c hcsmem, h1, h2, ?_⟩
            intro c2 hc2 hc2cs
            rcases List.mem_cons.mp hc2 with rfl | hmem
            · obtain ⟨c3, hc3mem, hc3⟩ := hrest
              have hub : tv (dropD board c3 AI)
                  ≤ (maxLoopP tv board rest (tv (dropD board c2 AI)) (some c2)).2 := by
                rw [maxLoopP_val]
                exact le_trans (listMax_ge (fun c4 => tv (dropD board c4 AI)) rest c3 hc3mem)
                  (le_max_right _ _)
              exact lt_of_lt_of_le hc3 hub
            · exact h3 c2 hmem hc2cs
          · push_neg at hrest
            have hdone := (ih (tv (dropD board c AI)) (some c)).1 hrest
            rw [hdone]
            refine ⟨c, List.mem_cons_self c rest, rfl, rfl, ?_⟩
            intro c2 hc2 hc2c
            rcases List.mem_cons.mp hc2 with rfl | hmem
            · exact absurd hc2c (lt_irrefl c2)
            · exact absurd hc2c (not_lt_of_lt (hhead c2 hmem))
        · simp only [maxLoopP, if_neg hlt]
          obtain ⟨c2, hc2mem, hc2⟩ := hex
          have hc2r : c2 ∈ rest := by
            rcases List.mem_cons.mp hc2mem with rfl | hmem
            · exact absurd hc2 hlt
            · exact hmem
          obtain ⟨cs, hcsmem, h1, h2, h3⟩ := (ih v best).2 ⟨c2, hc2r, hc2⟩ hpair2
          refine ⟨cs, List.mem_cons_of_mem c hcsmem, h1, h2, ?_⟩
          intro c3 hc3 hc3cs
          rcases List.mem_cons.mp hc3 with rfl | hmem
          · have hub : tv (dropD board c2 AI) ≤ (maxLoopP tv board rest v best).2 := by
              rw [maxLoopP_val]
              exact le_trans (listMax_ge (fun c4 => tv (dropD board c4 AI)) rest c2 hc2r)
                (le_max_right _ _)
            exact lt_of_le_of_lt (le_of_not_lt hlt) (lt_of_lt_of_le hc2 hub)
          · exact h3 c3 hmem hc3cs

theorem minimaxPlain_finite (d : ℕ) (b : Board) (m : Bool) :
    (minimaxPlain d b m).2 ≠ ⊥ ∧ (minimaxPlain d b m).2 ≠ ⊤ := by
  rw [← minimax_root_eq_plain pickHead d b m]
  exact minimax_finite pickHead d b ⊥ ⊤ m

/-- C3: at a non-terminal maximizing root with depth ≥ 1, when several
legal columns attain the optimal (exhaustive) minimax value, the search
returns the lowest-indexed one: the running best is replaced only on
strict improvement and columns are tried in ascending order. -/
theorem minimax_lowest_tie (pick : List ℕ → ℕ) (d : ℕ) (b : Board)
    (hterm : is_terminal b = false) (hd : 1 ≤ d)
    (htie : ∃ c1 ∈ get_valid_columns b, ∃ c2 ∈ get_valid_columns b, c1 ≠ c2
      ∧ (minimaxPlain (d - 1) (dropD b c1 AI) false).2 = (minimaxPlain d b true).2
      ∧ (minimaxPlain (d - 1) (dropD b c2 AI) false).2 = (minimaxPlain d b true).2) :
    ∃ c ∈ get_valid_columns b, (minimax pick d b ⊥ ⊤ true).1 = some c
      ∧ (minimaxPlain (d - 1) (dropD b c AI) false).2 = (minimaxPlain d b true).2
      ∧ ∀ c2 ∈ get_valid_columns b,
          (minimaxPlain (d - 1) (dropD b c2 AI) false).2 = (minimaxPlain d b true).2 →
            c ≤ c2 := by
  obtain ⟨k, rfl⟩ : ∃ k, d = k + 1 := by
    cases d with
    | zero => exact absurd hd (by decide)
    | succ k => exact ⟨k, rfl⟩
  have hk1 : k + 1 - 1 = k := rfl
  rw [hk1] at htie ⊢
  have hroot : minimax pick (k + 1) b ⊥ ⊤ true
      = maxLoop (fun b2 a2 bt2 => (minimax pick k b2 a2 bt2 false).2) b ⊤
          (get_valid_columns b) ⊥ ⊥ (some (pick (get_valid_columns b))) := by
    simp [minimax, hterm]
  have hev : ∀ b2 a, a ≠ ⊤ →
      (minimax pick k b2 a ⊤ false).2 ≠ ⊤
      ∧ (minimaxPlain k b2 false).2 ≤ (minimax pick k b2 a ⊤ false).2
      ∧ (a < (minimax pick k b2 a ⊤ false).2 →
          (minimax pick k b2 a ⊤ false).2 = (minimaxPlain k b2 false).2) := by
    intro b2 a haT
    have hfin := minimax_finite pick k b2 a ⊤ false
    obtain ⟨s1, s2⟩ := minimax_ab_spec pick k b2 a ⊤ false (Ne.lt_top haT)
    have hle := s2 (Ne.lt_top hfin.2)
    exact ⟨hfin.2, hle, fun hlt => le_antisymm (s1 hlt) hle⟩
  have hplain : minimax pick (k + 1) b ⊥ ⊤ true
      = maxLoopP (fun b2 => (minimaxPlain k b2 false).2) b (get_valid_columns b) ⊥
          (some (pick (get_valid_columns b))) := by
    rw [hroot]
    exact maxLoop_top_eq_plain _ _ b hev (get_valid_columns b) ⊥ _ (by decide)
  have hpairwise : (get_valid_columns b).Pairwise (· < ·) :=
    List.Pairwise.sublist (List.filter_sublist _) (List.pairwise_lt_range COLS)
  obtain ⟨c1, hc1mem, c2, hc2mem, hne, heq1, heq2⟩ := htie
  have hbotlt : (⊥ : XInt) < (minimaxPlain k (dropD b c1 AI) false).2 :=
    Ne.bot_lt (minimaxPlain_finite k (dropD b c1 AI) false).1
  obtain ⟨cs, hcsmem, h1, h2, h3⟩ :=
    (maxLoopP_argmax (fun b2 => (minimaxPlain k b2 false).2) b (get_valid_columns b) ⊥
      (some (pick (get_valid_columns b)))).2 ⟨c1, hc1mem, hbotlt⟩ hpairwise
  have hval : (maxLoopP (fun b2 => (minimaxPlain k b2 false).2) b (get_valid_columns b) ⊥
      (some (pick (get_valid_columns b)))).2 = (minimaxPlain (k + 1) b true).2 := by
    rw [maxLoopP_val]
    have : minimaxPlain (k + 1) b true
        = maxLoopP (fun b2 => (minimaxPlain k b2 false).2) b (get_valid_columns b) ⊥ none := by
      simp [minimaxPlain, hterm]
    rw [this, maxLoopP_val]
  refine ⟨cs, hcsmem, ?_, ?_, ?_⟩
  · rw [hplain]
    exact h1
  · rw [← hval]
    exact h2
  · intro c3 hc3mem heq3
    by_contra hno
    have hc3cs : c3 < cs := by omega
    exact absurd (hval ▸ h3 c3 hc3mem hc3cs) (by rw [heq3]; exact lt_irrefl _)

/-- Witness for C3: on `tieBoard`, columns 0 and 6 both reach the
optimal value 100000 at depth 1 and the search returns column 0. -/
theorem minimax_lowest_tie_witness :
    ∃ c ∈ get_valid_columns tieBoard, (minimax pickHead 1 tieBoard ⊥ ⊤ true).1 = some c
      ∧ (minimaxPlain 0 (dropD tieBoard c AI) false).2 = (minimaxPlain 1 tieBoard true).2
      ∧ ∀ c2 ∈ get_valid_columns tieBoard,
          (minimaxPlain 0 (dropD tieBoard c2 AI) false).2 = (minimaxPlain 1 tieBoard true).2 →
            c ≤ c2 :=
  minimax_lowest_tie pickHead 1 tieBoard (by decide) (by decide)
    ⟨0, by decide, 6, by decide, by decide, by decide, by decide⟩

/-! ### Window enumeration of the heuristic (C6) -/

theorem sum_map_flatMap {α β : Type} (l : List α) (f : α → List β) (g : β → ℤ) :
    ((l.flatMap f).map g).sum = (l.map fun x => ((f x).map g).sum).sum := by
  induction l with
  | nil => rfl
  | cons x xs ih => simp [ih]

/-- C6: `score_position` equals the sum of `score_window` over every
horizontal, vertical and diagonal 4-window at every valid origin — the
window list contains no duplicates and exactly the windows whose four
cells fit on the board — plus three times the count of the perspective's
pieces in the exact center column (column `COLS / 2 = 3`). -/
theorem score_position_spec (b : Board) (piece : ℕ) :
    score_position b piece =
      ((allWindowCoords.map fun w =>
          score_window (w.map fun rc => cell b rc.1 rc.2) piece).sum)
        + 3 * (((List.range ROWS).map fun r => cell b r (COLS / 2)).count piece : ℤ)
    ∧ allWindowCoords.Nodup
    ∧ ∀ w, w ∈ allWindowCoords ↔
        ((∃ r, r < ROWS ∧ ∃ c, c + 3 < COLS
            ∧ w = (List.range 4).map fun i => (r, c + i))
         ∨ (∃ c, c < COLS ∧ ∃ r, r + 3 < ROWS
            ∧ w = (List.range 4).map fun i => (r + i, c))
         ∨ (∃ r, r + 3 < ROWS ∧ ∃ c, c + 3 < COLS
            ∧ w = (List.range 4).map fun i => (r + i, c + i))
         ∨ (∃ r, r + 3 < ROWS ∧ ∃ c, 3 ≤ c ∧ c < COLS
            ∧ w = (List.range 4).map fun i => (r + i, c - i))) := by
  refine ⟨?_, by decide, ?_⟩
  · simp only [score_position, allWindowCoords, List.map_append, List.sum_append,
      sum_map_flatMap, List.map_map]
    simp only [hWindow, vWindow, d1Window, d2Window, Function.comp_def, List.map_map]
    ring
  · intro w
    simp only [allWindowCoords, List.mem_append, List.mem_flatMap, List.mem_map,
      List.mem_range]
    constructor
    · rintro (((⟨r, hr, c, hc, rfl⟩ | ⟨c, hc, r, hr, rfl⟩) | ⟨r, hr, c, hc, rfl⟩)
        | ⟨r, hr, j, hj, rfl⟩)
      · exact Or.inl ⟨r, by omega, c, by omega, rfl⟩
      · exact Or.inr (Or.inl ⟨c, by omega, r, by omega, rfl⟩)
      · exact Or.inr (Or.inr (Or.inl ⟨r, by omega, c, by omega, rfl⟩))
      · refine Or.inr (Or.inr (Or.inr ⟨r, by omega, 3 + j, by omega, by omega, ?_⟩))
        rfl
    · rintro (⟨r, hr, c, hc, rfl⟩ | ⟨c, hc, r, hr, rfl⟩ | ⟨r, hr, c, hc, rfl⟩
        | ⟨r, hr, c, hc3, hc7, rfl⟩)
      · exact Or.inl (Or.inl (Or.inl ⟨r, by omega, c, by omega, rfl⟩))
      · exact Or.inl (Or.inl (Or.inr ⟨c, by omega, r, by omega, rfl⟩))
      · exact Or.inl (Or.inr ⟨r, by omega, c, by omega, rfl⟩)
      · refine Or.inr ⟨r, by omega, c - 3, by omega, ?_⟩
        have h3 : 3 + (c - 3) = c := by omega
        simp [h3]

/-- Witness for C6 at a concrete board. -/
theorem score_position_spec_witness :
    score_position tieBoard AI =
      ((allWindowCoords.map fun w =>
          score_window (w.map fun rc => cell tieBoard rc.1 rc.2) AI).sum)
        + 3 * (((List.range ROWS).map fun r => cell tieBoard r (COLS / 2)).count AI : ℤ) :=
  (score_position_spec tieBoard AI).1

end Connect4
